import Mathlib

/-!
Verification of the reverse-mode automatic-differentiation substrate of the
`math` repository, together with the Laplace/lgp Newton solver and the
primitive-function layer that the excerpted sources contain.

The development has two layers:

* `SpecAD`: the AD engine (arena, tape, nodes, nested scopes, reverse sweep).
  The engine sources (`stan/math/rev/core`) are not part of the excerpt, so
  these definitions are modelled from the specification document.

* `Lgp`: a direct shallow embedding of the code that *is* in the excerpt:
  `lgp_newton_solver.hpp` (the Newton loop, the solver vari and its `chain`),
  `add.hpp`, and `lgamma_stirling_diff.hpp`.

Real numbers (`double`) are modelled by `ℚ` where only finite arithmetic is
involved, and by the four-way type `D` (NaN / ±infinity / finite) where the
claims concern IEEE special values.
-/

namespace SpecAD

/-- Modelled from the spec: a computation node (tape entry, §3/§4.2).  It
stores the computed `value`, the accumulated `adjoint` (initialized 0), the
tape positions of its operand nodes, and the local partial derivatives
(`sens`, one per operand; for the custom-gradient variant this is the
precomputed sensitivity vector). -/
structure Node where
  value : ℚ
  adjoint : ℚ
  operands : List Nat
  sens : List ℚ
deriving DecidableEq, Repr

/-- Adjoint of the node at position `j` of the tape (0 when out of range). -/
def adjAt (t : List Node) (j : Nat) : ℚ :=
  (t[j]?.map Node.adjoint).getD 0

/-- Add `c` into the adjoint of the node at position `j` (no-op out of range). -/
def addAdj (t : List Node) (j : Nat) (c : ℚ) : List Node :=
  match t[j]? with
  | none => t
  | some n => t.set j { n with adjoint := n.adjoint + c }

/-- Modelled from the spec: one `propagate()` invocation (§4.2) of the node at
position `i`: read `this.adjoint` and add `this.adjoint * local_partial`
into each operand's adjoint. -/
def propagateAt (t : List Node) (i : Nat) : List Node :=
  match t[i]? with
  | none => t
  | some n =>
    (n.operands.zip n.sens).foldl
      (fun acc os => addAdj acc os.1 (n.adjoint * os.2)) t

/-- Modelled from the spec: the reverse sweep over the tape segment of
positions `lo ≤ p < hi`, visiting positions in strictly decreasing order
(§4.5 step 3). -/
def sweepSeg (lo : Nat) : List Node → Nat → List Node
  | t, 0 => t
  | t, k + 1 => if k + 1 ≤ lo then t else sweepSeg lo (propagateAt t k) k

/-- Modelled from the spec: the full reverse sweep, walking the tape from its
last position down to position 0 and calling `propagate()` on each node. -/
def sweep (t : List Node) : List Node :=
  sweepSeg 0 t t.length

/-- The positions visited by `sweepSeg lo · hi`, in visit order. -/
def sweepVisits (lo : Nat) : Nat → List Nat
  | 0 => []
  | k + 1 => if k + 1 ≤ lo then [] else k :: sweepVisits lo k

/-- The tape invariant (§3): every node's operands are at strictly smaller
positions than the node itself. -/
def wellFormed (t : List Node) : Prop :=
  ∀ (i : Nat) (n : Node), t[i]? = some n → ∀ o ∈ n.operands, o < i

theorem length_addAdj (t : List Node) (j : Nat) (c : ℚ) :
    (addAdj t j c).length = t.length := by
  unfold addAdj
  cases h : t[j]? with
  | none => rfl
  | some n => simp

theorem adjAt_addAdj_self (t : List Node) (j : Nat) (c : ℚ) (hj : j < t.length) :
    adjAt (addAdj t j c) j = adjAt t j + c := by
  unfold addAdj adjAt
  cases h : t[j]? with
  | none =>
    rw [List.getElem?_eq_none_iff] at h; omega
  | some n =>
    rw [List.getElem?_set_eq_of_lt _ (by simpa using hj)]
    simp [h]

theorem adjAt_addAdj_ne (t : List Node) (j k : Nat) (c : ℚ) (hjk : j ≠ k) :
    adjAt (addAdj t k c) j = adjAt t j := by
  unfold addAdj
  cases h : t[k]? with
  | none => rfl
  | some n => unfold adjAt; rw [List.getElem?_set_ne (Ne.symm hjk)]

theorem operands_addAdj (t : List Node) (j : Nat) (c : ℚ) (i : Nat) :
    ((addAdj t j c)[i]?).map Node.operands = (t[i]?).map Node.operands := by
  unfold addAdj
  cases h : t[j]? with
  | none => rfl
  | some n =>
    by_cases hij : i = j
    · subst hij
      have hib : i < t.length := by
        by_contra hc
        rw [List.getElem?_eq_none_iff.mpr (by omega)] at h
        exact Option.noConfusion h
      rw [List.getElem?_set_eq_of_lt _ hib, h]
      rfl
    · rw [List.getElem?_set_ne (fun he => hij he.symm)]

theorem wellFormed_addAdj (t : List Node) (j : Nat) (c : ℚ)
    (hw : wellFormed t) : wellFormed (addAdj t j c) := by
  intro i n hn o ho
  have h := operands_addAdj t j c i
  rw [hn] at h
  cases hm : t[i]? with
  | none => rw [hm] at h; simp at h
  | some m =>
    rw [hm] at h
    simp at h
    exact hw i m hm o (h ▸ ho)

theorem foldl_addAdj_length (ops : List (Nat × ℚ)) (α : ℚ) (t : List Node) :
    (ops.foldl (fun acc os => addAdj acc os.1 (α * os.2)) t).length = t.length := by
  induction ops generalizing t with
  | nil => rfl
  | cons o os ih => simp only [List.foldl_cons]; rw [ih, length_addAdj]

theorem foldl_addAdj_wellFormed (ops : List (Nat × ℚ)) (α : ℚ) (t : List Node)
    (hw : wellFormed t) :
    wellFormed (ops.foldl (fun acc os => addAdj acc os.1 (α * os.2)) t) := by
  induction ops generalizing t with
  | nil => exact hw
  | cons o os ih => exact ih _ (wellFormed_addAdj _ _ _ hw)

theorem foldl_addAdj_adjAt_notmem (ops : List (Nat × ℚ)) (α : ℚ) (t : List Node)
    (j : Nat) (hj : ∀ os ∈ ops, os.1 ≠ j) :
    adjAt (ops.foldl (fun acc os => addAdj acc os.1 (α * os.2)) t) j = adjAt t j := by
  induction ops generalizing t with
  | nil => rfl
  | cons o os ih =>
    simp only [List.foldl_cons]
    rw [ih _ (fun p hp => hj p (List.mem_cons_of_mem _ hp)),
      adjAt_addAdj_ne _ _ _ _ (Ne.symm (hj o (List.mem_cons_self _ _)))]

theorem length_propagateAt (t : List Node) (i : Nat) :
    (propagateAt t i).length = t.length := by
  unfold propagateAt
  cases h : t[i]? with
  | none => rfl
  | some n => exact foldl_addAdj_length _ _ _

theorem wellFormed_propagateAt (t : List Node) (i : Nat) (hw : wellFormed t) :
    wellFormed (propagateAt t i) := by
  unfold propagateAt
  cases h : t[i]? with
  | none => exact hw
  | some n => exact foldl_addAdj_wellFormed _ _ _ hw

/-- When the tape is well formed, propagating the node at position `k` leaves
the adjoint of any position `j ≥ k` unchanged: the node only writes into its
operands, which sit strictly below `k`. -/
theorem adjAt_propagateAt_ge (t : List Node) (k j : Nat) (hw : wellFormed t)
    (hkj : k ≤ j) : adjAt (propagateAt t k) j = adjAt t j := by
  unfold propagateAt
  cases h : t[k]? with
  | none => rfl
  | some n =>
    refine foldl_addAdj_adjAt_notmem _ _ _ _ (fun os hos => ?_)
    have hmem : os.1 ∈ n.operands := (List.of_mem_zip hos).1
    have := hw k n h os.1 hmem
    omega

theorem length_sweepSeg (lo : Nat) (t : List Node) (hi : Nat) :
    (sweepSeg lo t hi).length = t.length := by
  induction hi generalizing t with
  | zero => rfl
  | succ k ih =>
    unfold sweepSeg
    by_cases h : k + 1 ≤ lo
    · simp [h]
    · simp only [h, if_false]; rw [ih, length_propagateAt]

theorem wellFormed_sweepSeg (lo : Nat) (t : List Node) (hi : Nat)
    (hw : wellFormed t) : wellFormed (sweepSeg lo t hi) := by
  induction hi generalizing t with
  | zero => exact hw
  | succ k ih =>
    unfold sweepSeg
    by_cases h : k + 1 ≤ lo
    · simp only [h, if_true]; exact hw
    · simp only [h, if_false]; exact ih _ (wellFormed_propagateAt _ _ hw)

theorem sweepSeg_self (lo : Nat) (t : List Node) : sweepSeg lo t lo = t := by
  cases lo with
  | zero => rfl
  | succ k => unfold sweepSeg; simp

/-- Decomposition of a sweep segment at an intermediate position. -/
theorem sweepSeg_decomp (lo mid hi : Nat) (t : List Node) (h1 : lo ≤ mid)
    (h2 : mid ≤ hi) :
    sweepSeg lo t hi = sweepSeg lo (sweepSeg mid t hi) mid := by
  induction hi generalizing t with
  | zero =>
    have : mid = 0 := by omega
    subst this; rfl
  | succ k ih =>
    by_cases hm : mid = k + 1
    · subst hm
      rw [sweepSeg_self]
    · have hmk : mid ≤ k := by omega
      have hlo : ¬ (k + 1 ≤ lo) := by omega
      rw [sweepSeg, if_neg hlo]
      conv_rhs => rw [sweepSeg, if_neg (by omega : ¬ (k + 1 ≤ mid))]
      exact ih _ hmk

/-- Stability: once the sweep has handled every position `≥ hi`, continuing
the sweep below `hi ≤ j + 1` never changes the adjoint at position `j`. -/
theorem adjAt_sweepSeg_stable (lo hi j : Nat) (t : List Node)
    (hw : wellFormed t) (hhi : hi ≤ j + 1) :
    adjAt (sweepSeg lo t hi) j = adjAt t j := by
  induction hi generalizing t with
  | zero => rfl
  | succ k ih =>
    unfold sweepSeg
    by_cases h : k + 1 ≤ lo
    · simp [h]
    · simp only [h, if_false]
      rw [ih _ (wellFormed_propagateAt _ _ hw) (by omega),
        adjAt_propagateAt_ge _ _ _ hw (by omega)]

theorem sweepSeg_eq_foldl_visits (lo : Nat) (t : List Node) (hi : Nat) :
    sweepSeg lo t hi = (sweepVisits lo hi).foldl propagateAt t := by
  induction hi generalizing t with
  | zero => rfl
  | succ k ih =>
    unfold sweepSeg sweepVisits
    by_cases h : k + 1 ≤ lo
    · simp [h]
    · simp only [h, if_false, List.foldl_cons]; exact ih _

theorem sweepVisits_mem_lt (lo hi : Nat) : ∀ x ∈ sweepVisits lo hi, x < hi := by
  induction hi with
  | zero => intro x hx; simp [sweepVisits] at hx
  | succ k ih =>
    intro x hx
    unfold sweepVisits at hx
    by_cases h : k + 1 ≤ lo
    · simp [h] at hx
    · simp only [h, if_false, List.mem_cons] at hx
      rcases hx with rfl | hx
      · omega
      · exact Nat.lt_succ_of_lt (ih x hx)

theorem sweepVisits_zero_eq_reverse_range (hi : Nat) :
    sweepVisits 0 hi = (List.range hi).reverse := by
  induction hi with
  | zero => rfl
  | succ k ih =>
    unfold sweepVisits
    rw [if_neg (by omega), ih, List.range_succ]
    simp

theorem sweepVisits_strict_decreasing (lo hi : Nat) :
    (sweepVisits lo hi).Pairwise (fun a b => b < a) := by
  induction hi with
  | zero => exact List.Pairwise.nil
  | succ k ih =>
    unfold sweepVisits
    by_cases h : k + 1 ≤ lo
    · simp [h]
    · simp only [h, if_false]
      exact List.Pairwise.cons (fun b hb => sweepVisits_mem_lt lo k b hb) ih

/-! ### Nesting manager, modelled from the spec (§4.4)

The engine state carries the tape, the arena allocation watermark, and the
explicit checkpoint stack of `(arena watermark, tape length)` pairs. -/

/-- Modelled from the spec: the per-thread engine state (tape, arena
watermark, checkpoint stack). -/
structure EngineState where
  tape : List Node
  arenaMark : Nat
  checkpoints : List (Nat × Nat)
deriving DecidableEq, Repr

/-- Modelled from the spec: `start_nested()` pushes the checkpoint
`(Arena.watermark(), Tape.size())`. -/
def start_nested (s : EngineState) : EngineState :=
  { s with checkpoints := (s.arenaMark, s.tape.length) :: s.checkpoints }

/-- Modelled from the spec: building one node appends it to the tape and
advances the arena watermark by the node's allocation size. -/
def buildNode (s : EngineState) (n : Node) (sz : Nat) : EngineState :=
  { s with tape := s.tape ++ [n], arenaMark := s.arenaMark + sz }

/-- Build a whole list of nodes in order. -/
def buildNodes (s : EngineState) (ns : List (Node × Nat)) : EngineState :=
  ns.foldl (fun a p => buildNode a p.1 p.2) s

/-- Modelled from the spec: `recover_nested()` pops the top checkpoint,
truncates the tape to the recorded length and rewinds the arena to the
recorded watermark; with an empty checkpoint stack it is a fatal
precondition violation, reported as a single top-level failure signal. -/
def recover_memory_nested (s : EngineState) : Except String EngineState :=
  match s.checkpoints with
  | [] => .error "recover_memory_nested called without a matching start_nested"
  | (w, len) :: rest =>
    .ok { tape := s.tape.take len, arenaMark := w, checkpoints := rest }

/-- One nested bracket: `start_nested(); build N nodes; recover_nested()`. -/
def bracket (s : EngineState) (ns : List (Node × Nat)) : Except String EngineState :=
  recover_memory_nested (buildNodes (start_nested s) ns)

/-- `k` repetitions of the nested bracket. -/
def iterBracket (s : EngineState) (ns : List (Node × Nat)) : Nat → Except String EngineState
  | 0 => .ok s
  | k + 1 =>
    match bracket s ns with
    | .error e => .error e
    | .ok s' => iterBracket s' ns k

theorem buildNodes_tape (s : EngineState) (ns : List (Node × Nat)) :
    (buildNodes s ns).tape = s.tape ++ ns.map Prod.fst := by
  induction ns generalizing s with
  | nil => simp [buildNodes]
  | cons p ps ih =>
    simp only [buildNodes, List.foldl_cons] at *
    rw [ih]
    simp [buildNode]

theorem buildNodes_checkpoints (s : EngineState) (ns : List (Node × Nat)) :
    (buildNodes s ns).checkpoints = s.checkpoints := by
  induction ns generalizing s with
  | nil => rfl
  | cons p ps ih =>
    simp only [buildNodes, List.foldl_cons] at *
    rw [ih]
    rfl

theorem bracket_eq_ok (s : EngineState) (ns : List (Node × Nat)) :
    bracket s ns = .ok s := by
  unfold bracket recover_memory_nested
  rw [buildNodes_checkpoints]
  simp only [start_nested]
  rw [buildNodes_tape]
  simp only [start_nested, List.take_left]

theorem sweepSeg_of_le (lo : Nat) (t : List Node) (hi : Nat) (h : hi ≤ lo) :
    sweepSeg lo t hi = t := by
  cases hi with
  | zero => rfl
  | succ k => unfold sweepSeg; simp [h]

/-! ### Value-handle layer, modelled from the spec (§4.6)

Each operation appends one node referencing its operand positions and
returns the pair (new tape, handle of the new node). -/

/-- Value of the node at position `j` (0 when out of range). -/
def valAt (t : List Node) (j : Nat) : ℚ :=
  (t[j]?.map Node.value).getD 0

/-- Modelled from the spec: `makeLeaf(value)` introduces an independent
variable: a node with no operands. -/
def mkLeaf (t : List Node) (v : ℚ) : List Node × Nat :=
  (t ++ [{ value := v, adjoint := 0, operands := [], sens := [] }], t.length)

/-- Modelled from the spec: the multiplication variant; local partials
`[y, x]` are stored at construction. -/
def mkMul (t : List Node) (i j : Nat) : List Node × Nat :=
  (t ++ [{ value := valAt t i * valAt t j, adjoint := 0, operands := [i, j],
           sens := [valAt t j, valAt t i] }], t.length)

/-- Modelled from the spec: the addition variant; local partials `[1, 1]`. -/
def mkAdd (t : List Node) (i j : Nat) : List Node × Nat :=
  (t ++ [{ value := valAt t i + valAt t j, adjoint := 0, operands := [i, j],
           sens := [1, 1] }], t.length)

/-- Modelled from the spec: `customGradientNode(value, operandHandles,
sensitivities)`, the hook used by iterative solvers to inject a precomputed
sensitivity vector as a single node's propagation rule. -/
def mkCustomGrad (t : List Node) (v : ℚ) (ops : List Nat) (sv : List ℚ) :
    List Node × Nat :=
  (t ++ [{ value := v, adjoint := 0, operands := ops, sens := sv }], t.length)

/-- Seed the adjoint of the node at position `j` to 1 (§4.5 step 2). -/
def seedAdj (t : List Node) (j : Nat) : List Node :=
  match t[j]? with
  | none => t
  | some n => t.set j { n with adjoint := 1 }

/-- Bounded reformulation of `wellFormed`, decidable on concrete tapes. -/
theorem wellFormed_iff_bounded (t : List Node) :
    wellFormed t ↔ ∀ i (h : i < t.length), ∀ o ∈ (t.get ⟨i, h⟩).operands, o < i := by
  constructor
  · intro hw i h o ho
    exact hw i _ (by rw [List.getElem?_eq_getElem h]) o (by simpa using ho)
  · intro hb i n hn o ho
    have hi : i < t.length := by
      by_contra hc
      rw [List.getElem?_eq_none_iff.mpr (by omega)] at hn
      exact Option.noConfusion hn
    have : t.get ⟨i, hi⟩ = n := by
      have := List.getElem?_eq_getElem hi
      rw [hn] at this
      simpa using this.symm
    exact hb i hi o (by rw [this]; exact ho)

/-! ### Concrete tapes for the scenario claims -/

/-- Tape for the custom-gradient scenario: two leaves `a`, `b` followed by a
custom-gradient node with operand handles `[0, 1]` and sensitivity vector
`[2, -1]`, whose adjoint is then seeded to 1. -/
def customGradTape : List Node :=
  let ta := mkLeaf [] 5
  let tb := mkLeaf ta.1 7
  let tc := mkCustomGrad tb.1 9 [ta.2, tb.2] [2, -1]
  seedAdj tc.1 tc.2

/-- Tape for the `z = x*y + x` scenario with leaves `x = 3`, `y = 4`;
`z`'s adjoint is seeded to 1. -/
def xyTape : List Node :=
  let tx := mkLeaf [] 3
  let ty := mkLeaf tx.1 4
  let tm := mkMul ty.1 tx.2 ty.2
  let tz := mkAdd tm.1 tm.2 tx.2
  seedAdj tz.1 tz.2

/-- C1: every node's `propagate()` reads the node's own adjoint and adds
`this.adjoint * local_partial_derivative` into each operand's adjoint,
exactly once; in particular, on the tape whose last node is a custom-gradient
node with operand handles `[0, 1]` and sensitivity vector `[2, -1]` and whose
adjoint is seeded to 1, one reverse sweep adds exactly 2 to the first
operand's adjoint and exactly -1 to the second operand's adjoint. -/
theorem claim_C1_propagate_accumulation :
    (∀ (t : List Node) (i a b : Nat) (n : Node) (p q : ℚ),
      t[i]? = some n → n.operands = [a, b] → n.sens = [p, q] →
      a ≠ b → a < t.length → b < t.length →
      adjAt (propagateAt t i) a = adjAt t a + n.adjoint * p ∧
      adjAt (propagateAt t i) b = adjAt t b + n.adjoint * q) ∧
    (adjAt (sweep customGradTape) 0 = 2 ∧ adjAt (sweep customGradTape) 1 = -1) := by
  constructor
  · intro t i a b n p q hn hops hsens hab ha hb
    simp only [propagateAt, hn, hops, hsens, List.zip_cons_cons, List.zip_nil_right,
      List.foldl_cons, List.foldl_nil]
    constructor
    · rw [adjAt_addAdj_ne _ _ _ _ hab, adjAt_addAdj_self _ _ _ ha]
    · rw [adjAt_addAdj_self _ _ _ (by rw [length_addAdj]; exact hb),
        adjAt_addAdj_ne _ _ _ _ (Ne.symm hab)]
  · norm_num [customGradTape, mkLeaf, mkCustomGrad, seedAdj, sweep, sweepSeg,
      propagateAt, addAdj, adjAt]

/-- Witness for C1: the custom-gradient scenario itself — operand handles
`[0, 1]`, sensitivity vector `[2, -1]`, adjoint seeded to 1. -/
theorem claim_C1_witness :
    adjAt (propagateAt customGradTape 2) 0 = adjAt customGradTape 0 + (1 : ℚ) * 2 ∧
    adjAt (propagateAt customGradTape 2) 1 = adjAt customGradTape 1 + (1 : ℚ) * (-1) :=
  claim_C1_propagate_accumulation.1 customGradTape 2 0 1
    { value := 9, adjoint := 1, operands := [0, 1], sens := [2, -1] } 2 (-1)
    (by decide) rfl rfl (by decide) (by decide) (by decide)

/-- C4: `start_nested(); build N nodes; recover_nested()` restores the whole
engine state — in particular `Tape.size()` and `Arena.watermark()` — to its
value before the scope began, for any node list (any `N ≥ 0`), and repeating
the bracket any number of times never grows the outer tape or arena state. -/
theorem claim_C4_nested_scope_roundtrip :
    ∀ (s : EngineState) (ns : List (Node × Nat)) (k : Nat),
      bracket s ns = Except.ok s ∧ iterBracket s ns k = Except.ok s := by
  intro s ns k
  refine ⟨bracket_eq_ok s ns, ?_⟩
  induction k with
  | zero => rfl
  | succ m ih =>
    unfold iterBracket
    rw [bracket_eq_ok]
    exact ih

/-- C5: the reverse sweep visits tape positions in strictly decreasing order
from the last position down to 0, and (on a well-formed tape) any node's
adjoint has already reached its final value once every larger-position node
has been processed. -/
theorem claim_C5_reverse_sweep_order :
    (∀ t : List Node,
      sweep t = (sweepVisits 0 t.length).foldl propagateAt t ∧
      sweepVisits 0 t.length = (List.range t.length).reverse ∧
      (sweepVisits 0 t.length).Pairwise (fun a b => b < a)) ∧
    (∀ t : List Node, wellFormed t → ∀ j : Nat,
      adjAt (sweep t) j = adjAt (sweepSeg (j + 1) t t.length) j) := by
  constructor
  · intro t
    exact ⟨sweepSeg_eq_foldl_visits _ _ _, sweepVisits_zero_eq_reverse_range _,
      sweepVisits_strict_decreasing _ _⟩
  · intro t hw j
    by_cases hj : j + 1 ≤ t.length
    · rw [sweep, sweepSeg_decomp 0 (j + 1) t.length t (by omega) hj]
      exact adjAt_sweepSeg_stable _ _ _ _ (wellFormed_sweepSeg _ _ _ hw) (le_refl _)
    · rw [sweep, sweepSeg_of_le (j + 1) t t.length (by omega),
        adjAt_sweepSeg_stable _ _ _ _ hw (by omega)]

/-- Witness for C5: on the concrete well-formed tape of `z = x*y + x`, the
final adjoint of leaf `x` (position 0) equals its value right after all
positions above 0 have been processed. -/
theorem claim_C5_witness :
    adjAt (sweep xyTape) 0 = adjAt (sweepSeg (0 + 1) xyTape xyTape.length) 0 :=
  claim_C5_reverse_sweep_order.2 xyTape
    ((wellFormed_iff_bounded xyTape).mpr (by decide)) 0

/-- C6: with leaves `x = 3`, `y = 4` and `z = x*y + x`, seeding `z`'s adjoint
to 1 and running the reverse sweep yields adjoint `5 = y + 1` on `x` and
adjoint `3 = x` on `y`. -/
theorem claim_C6_xy_plus_x_gradient :
    adjAt (sweep xyTape) 0 = 5 ∧ adjAt (sweep xyTape) 1 = 3 := by
  norm_num [xyTape, mkLeaf, mkMul, mkAdd, valAt, seedAdj, sweep, sweepSeg,
    propagateAt, addAdj, adjAt]

/-- C8: calling `recover_nested()` with an empty checkpoint stack is a fatal
precondition violation: it produces a single top-level failure signal with a
clear diagnostic and no partially recovered state. -/
theorem claim_C8_recover_underflow :
    ∀ s : EngineState, s.checkpoints = [] →
      recover_memory_nested s =
        Except.error "recover_memory_nested called without a matching start_nested" := by
  intro s h
  simp only [recover_memory_nested, h]

/-- Witness for C8: the empty engine state. -/
theorem claim_C8_witness :
    recover_memory_nested { tape := [], arenaMark := 0, checkpoints := [] } =
      Except.error "recover_memory_nested called without a matching start_nested" :=
  claim_C8_recover_underflow { tape := [], arenaMark := 0, checkpoints := [] } rfl

end SpecAD

namespace Lgp

/-!
Shallow embedding of `stan/math/laplace/lgp_newton_solver.hpp`.

`Eigen::VectorXd` becomes `List ℚ`.  The class `lgp_conditional_system` is
included by the solver header but its definition is not part of this excerpt,
so the four operations the solver calls on it (`cond_gradient`,
`cond_hessian`, `log_density`, `solver_gradient`) are abstract function
fields.  `elt_divide(gradient, cond_hessian(theta))` divides elementwise, so
the hessian is represented in the same vector shape as the gradient.

The C++ test `gradient.norm() <= tol` on reals is equivalent to
`0 ≤ tol ∧ ‖gradient‖² ≤ tol²`, which avoids square roots.
-/

def vadd (a b : List ℚ) : List ℚ := List.zipWith (· + ·) a b

def vneg (a : List ℚ) : List ℚ := a.map Neg.neg

def smul (c : ℚ) (a : List ℚ) : List ℚ := a.map (c * ·)

def eltDivide (a b : List ℚ) : List ℚ := List.zipWith (· / ·) a b

def dot (a b : List ℚ) : ℚ := (List.zipWith (· * ·) a b).sum

/-- Squared Euclidean norm. -/
def sqnorm (a : List ℚ) : ℚ := (a.map fun x => x * x).sum

/-- Double instantiation of `lgp_conditional_system`: the four member
operations the solver calls.  The class body is not part of the excerpt, so
the operations are abstract. -/
structure LgpSysD where
  cond_gradient : List ℚ → List ℚ
  cond_hessian : List ℚ → List ℚ
  log_density : List ℚ → ℚ
  solver_gradient : List ℚ → List ℚ

/-- The exception message thrown when the iteration limit is exceeded
(lgp_newton_solver.hpp lines 80-83). -/
def newtonMsg (maxN : Nat) : String :=
  "lgp_newton_solver: max number of iterations:" ++ toString maxN ++ " exceeded."

/-- Armijo line search (lgp_newton_solver.hpp lines 92-106): halve `alpha`
while the candidate's log density exceeds `log_density(theta) + c*m` with
`c = 1/2`, `tau = 1/2`.  The C++ `while` loop is modelled with explicit
fuel; the claims below are about `line_search = false`, where this is
never called. -/
def armijoAlpha (logdens : List ℚ → ℚ) (θ dir : List ℚ) (m : ℚ) :
    Nat → ℚ → ℚ
  | 0, alpha => alpha
  | fuel + 1, alpha =>
    if logdens (vadd θ (smul alpha dir)) > logdens θ + (1 / 2) * m
    then armijoAlpha logdens θ dir m fuel ((1 / 2) * alpha)
    else alpha

/-- One Newton update (lgp_newton_solver.hpp lines 86-107):
`direction = -elt_divide(gradient, cond_hessian(theta))`, then either plain
`theta += direction` or the Armijo step. -/
def newtonStep (sys : LgpSysD) (ls : Bool) (lsFuel : Nat) (θ : List ℚ) : List ℚ :=
  let grad := sys.cond_gradient θ
  let dir := vneg (eltDivide grad (sys.cond_hessian θ))
  if ls = false then vadd θ dir
  else
    let m := dot dir grad
    vadd θ (smul (armijoAlpha sys.log_density θ dir m lsFuel 1) dir)

/-- Convergence test of the loop: `gradient.norm() <= tol` at `θ`, expressed
without square roots as `0 ≤ tol ∧ ‖gradient‖² ≤ tol²`. -/
def converged (sys : LgpSysD) (tol : ℚ) (θ : List ℚ) : Prop :=
  0 ≤ tol ∧ sqnorm (sys.cond_gradient θ) ≤ tol * tol

instance (sys : LgpSysD) (tol : ℚ) (θ : List ℚ) :
    Decidable (converged sys tol θ) := by
  unfold converged
  infer_instance

/-- The Newton loop (lgp_newton_solver.hpp lines 76-111), with the remaining
iteration count as the recursion fuel: on entry with 0 remaining iterations
(`i == max_num_steps`) the C++ throws `boost::math::evaluation_error`;
otherwise it computes the gradient at the current iterate, applies one
update, and breaks — returning the *updated* iterate — when the gradient at
the *pre-update* iterate meets the tolerance. -/
def newtonLoop (sys : LgpSysD) (ls : Bool) (lsFuel : Nat) (tol : ℚ)
    (maxN : Nat) : List ℚ → Nat → Except String (List ℚ)
  | _, 0 => .error (newtonMsg maxN)
  | θ, k + 1 =>
    let θ' := newtonStep sys ls lsFuel θ
    if converged sys tol θ then .ok θ'
    else newtonLoop sys ls lsFuel tol maxN θ' k

/-- The double instantiation of `lgp_newton_solver`
(lgp_newton_solver.hpp lines 64-114). -/
def lgp_newton_solver_dbl (θ0 : List ℚ) (sys : LgpSysD) (tol : ℚ) (maxN : Nat)
    (ls : Bool) (lsFuel : Nat) : Except String (List ℚ) :=
  newtonLoop sys ls lsFuel tol maxN θ0 maxN

/-- The `i`-th Newton iterate starting from `θ0`. -/
def newtonIterate (sys : LgpSysD) (ls : Bool) (lsFuel : Nat) (θ0 : List ℚ) :
    Nat → List ℚ
  | 0 => θ0
  | k + 1 => newtonIterate sys ls lsFuel (newtonStep sys ls lsFuel θ0) k

theorem newtonLoop_error_of_never_converged (sys : LgpSysD) (ls : Bool)
    (lsFuel : Nat) (tol : ℚ) (maxN : Nat) :
    ∀ (k : Nat) (θ : List ℚ),
      (∀ i < k, ¬ converged sys tol (newtonIterate sys ls lsFuel θ i)) →
      newtonLoop sys ls lsFuel tol maxN θ k = .error (newtonMsg maxN) := by
  intro k
  induction k with
  | zero => intro θ _; rfl
  | succ m ih =>
    intro θ hnc
    have h0 : ¬ converged sys tol θ := hnc 0 (Nat.succ_pos m)
    unfold newtonLoop
    rw [if_neg h0]
    exact ih (newtonStep sys ls lsFuel θ)
      (fun i hi => hnc (i + 1) (Nat.succ_lt_succ hi))

theorem newtonLoop_ok_of_converged (sys : LgpSysD) (ls : Bool)
    (lsFuel : Nat) (tol : ℚ) (maxN : Nat) :
    ∀ (k : Nat) (θ θ' : List ℚ),
      newtonLoop sys ls lsFuel tol maxN θ k = .ok θ' →
      ∃ i, i < k ∧ converged sys tol (newtonIterate sys ls lsFuel θ i) ∧
        θ' = newtonStep sys ls lsFuel (newtonIterate sys ls lsFuel θ i) := by
  intro k
  induction k with
  | zero => intro θ θ' h; exact absurd h (by simp [newtonLoop])
  | succ m ih =>
    intro θ θ' h
    unfold newtonLoop at h
    by_cases hc : converged sys tol θ
    · rw [if_pos hc] at h
      exact ⟨0, Nat.succ_pos m, hc, (Except.ok.injEq _ _ ▸ h).symm⟩
    · rw [if_neg hc] at h
      obtain ⟨i, hi, hconv, heq⟩ := ih (newtonStep sys ls lsFuel θ) θ' h
      exact ⟨i + 1, Nat.succ_lt_succ hi, hconv, heq⟩

/-!
Embedding of `lgp_newton_solver_vari` (lgp_newton_solver.hpp lines 14-57)
and the var instantiation of `lgp_newton_solver` (lines 121-148).

Every `vari` allocation — both those pushed on the chainable stack and the
`new vari(value, false)` outputs pushed on the no-chain stack — is recorded
on one list in creation order, so list index = creation position.  The
`stacked` flag distinguishes the two stacks.
-/

/-- One `vari`: value, adjoint, and whether it sits on the chainable stack
(`new vari(v)`) or the no-chain stack (`new vari(v, false)`). -/
structure LVari where
  val : ℚ
  adj : ℚ
  stacked : Bool
deriving DecidableEq, Repr

/-- The members of `lgp_newton_solver_vari`: its own creation position, the
position `*phi_` points to, `theta_size_`, the positions stored in the
`theta_` array, and the cached Jacobian `J_`. -/
structure SolverVariRec where
  pos : Nat
  phiPos : Nat
  thetaSize : Nat
  thetaPos : List Nat
  J : List ℚ
deriving DecidableEq, Repr

/-- Adjoint of the vari at creation position `j` (0 when out of range). -/
def adjL (t : List LVari) (j : Nat) : ℚ :=
  (t[j]?.map LVari.adj).getD 0

/-- Add `c` into the adjoint of the vari at position `j`. -/
def addAdjL (t : List LVari) (j : Nat) (c : ℚ) : List LVari :=
  match t[j]? with
  | none => t
  | some n => t.set j { n with adj := n.adj + c }

/-- The constructor loop `for (i = 0; i < theta_size_; i++) theta_[i] = new
vari(theta_dbl(i), false)` (lines 40-41): each step allocates the output
vari at the current end of the allocation list and stores its position into
slot `i` of the `theta_` array. -/
def pushOutputs : List LVari → List Nat → Nat → List ℚ → List LVari × List Nat
  | tp, arr, _, [] => (tp, arr)
  | tp, arr, i, v :: vs =>
    pushOutputs (tp ++ [{ val := v, adj := 0, stacked := false }])
      (arr.set i tp.length) (i + 1) vs

/-- The `lgp_newton_solver_vari` constructor (lines 26-51): the base-class
`vari(theta_dbl(0))` allocation puts the node itself on the chainable stack
at position `tape.length`; `theta_[0] = this` stores the node's own
position, after which the loop starting at `i = 0` overwrites every slot —
slot 0 included — with freshly allocated no-chain output varis; finally
`J_ = system.solver_gradient(theta_dbl)` caches the Jacobian. -/
def mkSolverVari (tape : List LVari) (phiPos : Nat) (sys : LgpSysD)
    (θdbl : List ℚ) : List LVari × SolverVariRec :=
  let pos := tape.length
  let tape1 := tape ++ [{ val := θdbl.headD 0, adj := 0, stacked := true }]
  let arr0 := (List.replicate θdbl.length 0).set 0 pos
  let out := pushOutputs tape1 arr0 0 θdbl
  (out.1,
   { pos := pos, phiPos := phiPos, thetaSize := θdbl.length,
     thetaPos := out.2, J := sys.solver_gradient θdbl })

/-- `chain()` (lines 53-56): `for (i = 0; i < theta_size_; i++)
phi_[0]->adj_ += theta_[i]->adj_ * J_[i]` — it reads the adjoints at the
positions in `theta_` and accumulates into the adjoint at `*phi_`. -/
def solverChain (tape : List LVari) (v : SolverVariRec) : List LVari :=
  (v.thetaPos.zip v.J).foldl
    (fun tp tj => addAdjL tp v.phiPos (adjL tp tj.1 * tj.2)) tape

/-- The var instantiation of `lgp_newton_solver` (lines 121-148): run the
double solver on a double copy of the system, then build one
`lgp_newton_solver_vari`; the returned handles `theta(i) = var(theta_[i])`
are the positions stored in the `theta_` array. -/
def lgp_newton_solver_var (tape : List LVari) (θ0 : List ℚ) (phiPos : Nat)
    (sys : LgpSysD) (tol : ℚ) (maxN : Nat) (ls : Bool) (lsFuel : Nat) :
    Except String (List LVari × SolverVariRec × List Nat) :=
  match lgp_newton_solver_dbl θ0 sys tol maxN ls lsFuel with
  | .error e => .error e
  | .ok θdbl =>
    let out := mkSolverVari tape phiPos sys θdbl
    .ok (out.1, out.2, out.2.thetaPos)

theorem pushOutputs_fst (vs : List ℚ) :
    ∀ (tp : List LVari) (arr : List Nat) (i : Nat),
      (pushOutputs tp arr i vs).1
        = tp ++ vs.map (fun v => { val := v, adj := 0, stacked := false }) := by
  induction vs with
  | nil => intro tp arr i; simp [pushOutputs]
  | cons v vs ih =>
    intro tp arr i
    rw [pushOutputs, ih]
    simp

theorem pushOutputs_snd_getElem? (vs : List ℚ) :
    ∀ (tp : List LVari) (arr : List Nat) (i j : Nat),
      ((pushOutputs tp arr i vs).2)[j]?
        = if i ≤ j ∧ j < i + vs.length ∧ j < arr.length
          then some (tp.length + (j - i)) else arr[j]? := by
  induction vs with
  | nil =>
    intro tp arr i j
    simp only [pushOutputs, List.length_nil]
    rw [if_neg (by omega)]
  | cons v vs ih =>
    intro tp arr i j
    rw [pushOutputs, ih]
    by_cases hij : i = j
    · subst hij
      by_cases hlen : i < arr.length
      · rw [if_neg (by omega), if_pos (by simp; omega),
          List.getElem?_set_eq_of_lt _ (by simpa using hlen)]
        simp
      · rw [if_neg (by omega), if_neg (by omega),
          List.set_eq_of_length_le (by omega)]
    · by_cases hin : i + 1 ≤ j ∧ j < i + 1 + vs.length ∧ j < arr.length
      · rw [if_pos (by simp at hin ⊢; omega)]
        rw [if_pos (by simp; omega)]
        congr 1
        simp
        omega
      · rw [if_neg (by simpa using hin), if_neg (by simp; omega),
          List.getElem?_set_ne hij]

theorem pushOutputs_snd_length (vs : List ℚ) :
    ∀ (tp : List LVari) (arr : List Nat) (i : Nat),
      ((pushOutputs tp arr i vs).2).length = arr.length := by
  induction vs with
  | nil => intro tp arr i; rfl
  | cons v vs ih =>
    intro tp arr i
    rw [pushOutputs, ih]
    simp

/-- With a full-length `theta_` array and the loop starting at `i = 0`, every
slot ends up holding the position of a fresh output vari:
`theta_[j]` is allocation position `tp.length + j`. -/
theorem pushOutputs_snd_closed (vs : List ℚ) (tp : List LVari) (arr : List Nat)
    (hlen : arr.length = vs.length) :
    (pushOutputs tp arr 0 vs).2 = (List.range vs.length).map (tp.length + ·) := by
  apply List.ext_getElem?
  intro j
  rw [pushOutputs_snd_getElem?]
  by_cases hj : j < vs.length
  · rw [if_pos (by omega)]
    rw [List.getElem?_map, List.getElem?_range hj]
    simp
  · rw [if_neg (by omega), List.getElem?_eq_none_iff.mpr (by omega),
      List.getElem?_eq_none_iff.mpr (by simpa using hj)]

theorem adjL_addAdjL_ne (t : List LVari) (j k : Nat) (c : ℚ) (hjk : j ≠ k) :
    adjL (addAdjL t k c) j = adjL t j := by
  unfold addAdjL
  cases h : t[k]? with
  | none => rfl
  | some n => unfold adjL; rw [List.getElem?_set_ne (Ne.symm hjk)]

/-- `chain()` accumulates only into the adjoint at `*phi_`; every other
position is left unchanged. -/
theorem solverChain_ne (v : SolverVariRec) (p : Nat) (hp : p ≠ v.phiPos) :
    ∀ t : List LVari, adjL (solverChain t v) p = adjL t p := by
  unfold solverChain
  generalize v.thetaPos.zip v.J = l
  induction l with
  | nil => intro t; rfl
  | cons x xs ih =>
    intro t
    simp only [List.foldl_cons]
    rw [ih, adjL_addAdjL_ne _ _ _ _ hp]

theorem mkSolverVari_thetaPos (tape : List LVari) (phiPos : Nat)
    (sys : LgpSysD) (θdbl : List ℚ) :
    (mkSolverVari tape phiPos sys θdbl).2.thetaPos
      = (List.range θdbl.length).map (tape.length + 1 + ·) := by
  simp only [mkSolverVari]
  rw [pushOutputs_snd_closed _ _ _ (by simp)]
  simp

/-- C2 (amended): the node whose adjoint `chain()` *updates* — the operand
`*phi_` — is at a position strictly less than the solver node's own
position, and this reference is fixed at construction; but the nodes whose
adjoints `chain()` *reads* — the output varis stored in `theta_` — are
created during the node's own construction at positions strictly greater
than the node's position (they go on the no-chain stack). -/
theorem claim_C2_amended :
    ∀ (tape : List LVari) (phiPos : Nat) (sys : LgpSysD) (θdbl : List ℚ),
      phiPos < tape.length →
      (mkSolverVari tape phiPos sys θdbl).2.phiPos
          < (mkSolverVari tape phiPos sys θdbl).2.pos ∧
      (∀ r ∈ (mkSolverVari tape phiPos sys θdbl).2.thetaPos,
        (mkSolverVari tape phiPos sys θdbl).2.pos < r) ∧
      (∀ (t : List LVari) (p : Nat), p ≠ phiPos →
        adjL (solverChain t (mkSolverVari tape phiPos sys θdbl).2) p = adjL t p) := by
  intro tape phiPos sys θdbl hphi
  refine ⟨hphi, ?_, ?_⟩
  · intro r hr
    rw [mkSolverVari_thetaPos] at hr
    obtain ⟨j, _, rfl⟩ := List.mem_map.mp hr
    show tape.length < tape.length + 1 + j
    omega
  · intro t p hp
    exact solverChain_ne _ p hp t

/-- System used in the C2 scenario; `chain()` only consults
`solver_gradient`'s cached output `J_ = [3]`. -/
def c2Sys : LgpSysD :=
  { cond_gradient := fun _ => [], cond_hessian := fun _ => [],
    log_density := fun _ => 0, solver_gradient := fun _ => [3] }

/-- Initial allocation list holding only the `phi` vari, at position 0. -/
def c2Tape : List LVari := [{ val := 2, adj := 0, stacked := true }]

/-- C2 is false as stated: constructing `lgp_newton_solver_vari` with `phi`
at position 0 on a one-node tape puts the solver node at position 1, yet its
`chain()` reads the adjoint of `theta_[0]`, the output vari created *after*
it at position 2 — seeding that adjoint to 1 makes `chain()` add
`1 * J_[0] = 3` into `phi`'s adjoint, so the read is real. -/
theorem claim_C2_counterexample :
    (mkSolverVari c2Tape 0 c2Sys [5]).2.pos = 1 ∧
    (mkSolverVari c2Tape 0 c2Sys [5]).2.thetaPos = [2] ∧
    ¬ (∀ r ∈ (mkSolverVari c2Tape 0 c2Sys [5]).2.thetaPos,
        r < (mkSolverVari c2Tape 0 c2Sys [5]).2.pos) ∧
    adjL (solverChain (addAdjL (mkSolverVari c2Tape 0 c2Sys [5]).1 2 1)
        (mkSolverVari c2Tape 0 c2Sys [5]).2) 0 = 3 := by
  refine ⟨by decide, by decide, by decide, ?_⟩
  norm_num [mkSolverVari, pushOutputs, solverChain, addAdjL, adjL, c2Sys, c2Tape]

/-- Witness for C2 (amended): the concrete construction of the scenario. -/
theorem claim_C2_witness :
    (mkSolverVari c2Tape 0 c2Sys [5]).2.phiPos
        < (mkSolverVari c2Tape 0 c2Sys [5]).2.pos ∧
    (∀ r ∈ (mkSolverVari c2Tape 0 c2Sys [5]).2.thetaPos,
      (mkSolverVari c2Tape 0 c2Sys [5]).2.pos < r) ∧
    (∀ (t : List LVari) (p : Nat), p ≠ 0 →
      adjL (solverChain t (mkSolverVari c2Tape 0 c2Sys [5]).2) p = adjL t p) :=
  claim_C2_amended c2Tape 0 c2Sys [5] (by decide)

/-- C3: when `phi` is a var, the Newton iteration runs entirely on the
double-valued system — `lgp_newton_solver_dbl` is a plain function of
rational vectors with no access to the allocation list — and the var
instantiation appends exactly one chainable node (plus the no-chain output
varis); the node's cached sensitivity vector is `solver_gradient` evaluated
once at the double solution. -/
theorem claim_C3_single_custom_node :
    ∀ (tape : List LVari) (θ0 : List ℚ) (phiPos : Nat) (sys : LgpSysD)
      (tol : ℚ) (maxN : Nat) (ls : Bool) (lsFuel : Nat) (θstar : List ℚ),
      lgp_newton_solver_dbl θ0 sys tol maxN ls lsFuel = Except.ok θstar →
      ∃ tape' rec handles,
        lgp_newton_solver_var tape θ0 phiPos sys tol maxN ls lsFuel
            = Except.ok (tape', rec, handles) ∧
        tape' = tape ++ { val := θstar.headD 0, adj := 0, stacked := true }
            :: θstar.map (fun v => { val := v, adj := 0, stacked := false }) ∧
        (tape'.filter (fun n => n.stacked)).length
            = (tape.filter (fun n => n.stacked)).length + 1 ∧
        rec.J = sys.solver_gradient θstar ∧
        rec.pos = tape.length ∧
        handles = rec.thetaPos := by
  intro tape θ0 phiPos sys tol maxN ls lsFuel θstar h
  have hshape : (mkSolverVari tape phiPos sys θstar).1
      = tape ++ { val := θstar.headD 0, adj := 0, stacked := true }
          :: θstar.map (fun v => { val := v, adj := 0, stacked := false }) := by
    simp only [mkSolverVari]
    rw [pushOutputs_fst]
    simp
  refine ⟨(mkSolverVari tape phiPos sys θstar).1,
    (mkSolverVari tape phiPos sys θstar).2,
    (mkSolverVari tape phiPos sys θstar).2.thetaPos,
    ?_, hshape, ?_, rfl, rfl, rfl⟩
  · unfold lgp_newton_solver_var
    rw [h]
  · rw [hshape]
    rw [List.filter_append, List.length_append, List.filter_cons_of_pos (by rfl)]
    simp only [List.length_cons]
    have : (θstar.map
        (fun v => ({ val := v, adj := 0, stacked := false } : LVari))).filter
          (fun n => n.stacked) = [] := by
      induction θstar with
      | nil => rfl
      | cons a as ih => simp [ih]
    rw [this]
    simp

/-- System on which the Newton iteration converges immediately: the
conditional gradient is identically zero. -/
def c3Sys : LgpSysD :=
  { cond_gradient := fun _ => [0], cond_hessian := fun _ => [1],
    log_density := fun _ => 0, solver_gradient := fun _ => [7] }

/-- Witness for C3: the zero-gradient system from `θ0 = [3]`. -/
theorem claim_C3_witness :
    ∃ tape' rec handles,
      lgp_newton_solver_var [] [3] 0 c3Sys 1 5 false 0
          = Except.ok (tape', rec, handles) ∧
      tape' = [] ++ { val := ([3] : List ℚ).headD 0, adj := 0, stacked := true }
          :: ([3] : List ℚ).map (fun v => { val := v, adj := 0, stacked := false }) ∧
      (tape'.filter (fun n => n.stacked)).length
          = (([] : List LVari).filter (fun n => n.stacked)).length + 1 ∧
      rec.J = c3Sys.solver_gradient [3] ∧
      rec.pos = ([] : List LVari).length ∧
      handles = rec.thetaPos :=
  claim_C3_single_custom_node [] [3] 0 c3Sys 1 5 false 0 [3]
    (by simp [lgp_newton_solver_dbl, newtonLoop, newtonStep, converged, sqnorm,
      eltDivide, vadd, vneg, c3Sys])

/-- C9 (amended): if the conditional-gradient norm at each of the iterates
`θ_0 … θ_{maxN-1}` (the values at which the loop checks convergence, before
each update) exceeds `tol`, the double solver throws the exception whose
message reports the exceeded maximum number of iterations; and whenever it
returns, it returns `θ_{i+1}` — one Newton update past the first iterate
`θ_i` whose gradient satisfied the tolerance. -/
theorem claim_C9_amended :
    ∀ (θ0 : List ℚ) (sys : LgpSysD) (tol : ℚ) (maxN : Nat) (ls : Bool)
      (lsFuel : Nat),
      ((∀ i < maxN, ¬ converged sys tol (newtonIterate sys ls lsFuel θ0 i)) →
        lgp_newton_solver_dbl θ0 sys tol maxN ls lsFuel
          = Except.error (newtonMsg maxN)) ∧
      (∀ θ', lgp_newton_solver_dbl θ0 sys tol maxN ls lsFuel = Except.ok θ' →
        ∃ i, i < maxN ∧ converged sys tol (newtonIterate sys ls lsFuel θ0 i) ∧
          θ' = newtonStep sys ls lsFuel (newtonIterate sys ls lsFuel θ0 i)) := by
  intro θ0 sys tol maxN ls lsFuel
  constructor
  · intro h
    exact newtonLoop_error_of_never_converged sys ls lsFuel tol maxN maxN θ0 h
  · intro θ' h
    obtain ⟨i, hi, hc, he⟩ := newtonLoop_ok_of_converged sys ls lsFuel tol maxN maxN θ0 θ' h
    exact ⟨i, hi, hc, he⟩

/-- Witness for C9 (amended): on the zero-gradient system the solver returns
after the convergence check at `θ_0` succeeds. -/
theorem claim_C9_witness :
    ∃ i, i < 5 ∧ converged c3Sys 1 (newtonIterate c3Sys false 0 [3] i) ∧
      [3] = newtonStep c3Sys false 0 (newtonIterate c3Sys false 0 [3] i) :=
  (claim_C9_amended [3] c3Sys 1 5 false 0).2 [3]
    (by simp [lgp_newton_solver_dbl, newtonLoop, newtonStep, converged, sqnorm,
      eltDivide, vadd, vneg, c3Sys])

/-- System whose conditional gradient meets the tolerance at `[1]` but not at
the post-update iterate `[0]`. -/
def c9Sys : LgpSysD :=
  { cond_gradient := fun θ => if θ = [0] then [5] else θ,
    cond_hessian := fun _ => [1],
    log_density := fun _ => 0, solver_gradient := fun _ => [0] }

/-- C9 is false as stated in its "never returns an unconverged iterate"
part: from `θ0 = [1]` with `tol = 1` the convergence check succeeds at
`θ_0 = [1]` (gradient `[1]`, norm 1 ≤ tol), but the solver then returns the
*updated* iterate `[0]`, whose own conditional gradient is `[5]` with norm
5 > tol. -/
theorem claim_C9_counterexample :
    lgp_newton_solver_dbl [1] c9Sys 1 10 false 0 = Except.ok [0] ∧
    ¬ converged c9Sys 1 [0] := by
  constructor
  · norm_num [lgp_newton_solver_dbl, newtonLoop, newtonStep, converged, sqnorm,
      eltDivide, vadd, vneg, c9Sys]
  · norm_num [converged, c9Sys, sqnorm]

end Lgp

namespace Prim

/-!
Embedding of the primitive-function layer:
`stan/math/prim/fun/lgamma_stirling_diff.hpp` and
`stan/math/prim/fun/add.hpp`.

For these claims the IEEE special values matter, so a `double` is modelled
as NaN, +infinity, -infinity, or a finite rational.  The comparison
operators follow IEEE semantics: every comparison with NaN is false.
-/

/-- A `double`: NaN, one of the two infinities, or a finite value. -/
inductive D where
  | nan : D
  | pinf : D
  | ninf : D
  | fin : ℚ → D
deriving DecidableEq, Repr

/-- IEEE `<`: false whenever either side is NaN. -/
def dlt : D → D → Bool
  | .nan, _ => false
  | _, .nan => false
  | .ninf, .ninf => false
  | .ninf, _ => true
  | _, .ninf => false
  | .fin a, .fin b => a < b
  | .fin _, .pinf => true
  | .pinf, _ => false

/-- IEEE `==`: false whenever either side is NaN. -/
def deq : D → D → Bool
  | .nan, _ => false
  | _, .nan => false
  | .pinf, .pinf => true
  | .ninf, .ninf => true
  | .fin a, .fin b => a == b
  | _, _ => false

/-- IEEE `<=`. -/
def dle (a b : D) : Bool := dlt a b || deq a b

/-- IEEE `>=`. -/
def dge (a b : D) : Bool := dle b a

/-- IEEE negation. -/
def dnegD : D → D
  | .nan => .nan
  | .pinf => .ninf
  | .ninf => .pinf
  | .fin a => .fin (-a)

/-- IEEE addition (`inf + (-inf) = NaN`). -/
def dadd : D → D → D
  | .nan, _ => .nan
  | _, .nan => .nan
  | .pinf, .ninf => .nan
  | .ninf, .pinf => .nan
  | .pinf, _ => .pinf
  | _, .pinf => .pinf
  | .ninf, _ => .ninf
  | _, .ninf => .ninf
  | .fin a, .fin b => .fin (a + b)

/-- IEEE subtraction. -/
def dsub (a b : D) : D := dadd a (dnegD b)

/-- IEEE multiplication (`inf * 0 = NaN`). -/
def dmul : D → D → D
  | .nan, _ => .nan
  | _, .nan => .nan
  | .pinf, .pinf => .pinf
  | .pinf, .ninf => .ninf
  | .ninf, .pinf => .ninf
  | .ninf, .ninf => .pinf
  | .pinf, .fin b => if b = 0 then .nan else if 0 < b then .pinf else .ninf
  | .fin a, .pinf => if a = 0 then .nan else if 0 < a then .pinf else .ninf
  | .ninf, .fin b => if b = 0 then .nan else if 0 < b then .ninf else .pinf
  | .fin a, .ninf => if a = 0 then .nan else if 0 < a then .ninf else .pinf
  | .fin a, .fin b => .fin (a * b)

/-- `stan::math::inv`: `1 / x`, with `1/inf = 0` and `1/0 = +inf` (the
argument reaching this branch of `lgamma_stirling_diff` is `≥ 10`). -/
def dinv : D → D
  | .nan => .nan
  | .pinf => .fin 0
  | .ninf => .fin 0
  | .fin a => if a = 0 then .pinf else .fin a⁻¹

/-- Modelled from the spec: `check_nonnegative` (stan/math/prim/err, not in
the excerpt) fails with a descriptive domain error, before any node is
constructed, unless the argument satisfies `x >= 0` (so it also rejects
NaN, which `lgamma_stirling_diff` filters out first). -/
def check_nonnegative (x : D) : Except String Unit :=
  if dge x (.fin 0) then .ok ()
  else .error "lgamma_stirling_diff: argument must be nonnegative"

/-- `lgamma_stirling_diff` (lgamma_stirling_diff.hpp lines 42-74): return
NaN on NaN input, reject negative input via `check_nonnegative`, return
+infinity at 0, subtract `lgamma_stirling` from `lgamma` below the cutoff
`lgamma_stirling_diff_useful = 10`, and otherwise evaluate the three-term
Stirling series in `1/x`.  The external transcendental functions `lgamma`
and `lgamma_stirling` are parameters. -/
def lgamma_stirling_diff (lgammaF lgammaStirlingF : D → D) (x : D) :
    Except String D :=
  if x = D.nan then .ok D.nan
  else
    match check_nonnegative x with
    | .error e => .error e
    | .ok () =>
      if deq x (.fin 0) then .ok D.pinf
      else if dlt x (.fin 10) then .ok (dsub (lgammaF x) (lgammaStirlingF x))
      else
        let inv_x := dinv x
        let inv_x_squared := dmul inv_x inv_x
        let inv_x_cubed := dmul inv_x inv_x_squared
        let inv_x_fifth := dmul inv_x_cubed inv_x_squared
        .ok (dadd
          (dadd (dmul (.fin (0.0833333333333333333333333 : ℚ)) inv_x)
            (dmul (.fin (-0.00277777777777777777777778 : ℚ)) inv_x_cubed))
          (dmul (.fin (0.000793650793650793650793651 : ℚ)) inv_x_fifth))

/-- A positive finite `double`. -/
def isPosFinite (x : D) : Prop := ∃ q : ℚ, x = D.fin q ∧ 0 < q

/-- Modelled from the spec: `check_positive_finite` (stan/math/prim/err, not
in the excerpt; behavior fixed by its unit tests) throws `std::domain_error`
for every argument that is not both positive and finite — including 0,
negative values, both infinities and NaN. -/
def check_positive_finite (x : D) : Except String Unit :=
  match x with
  | .fin q =>
    if 0 < q then .ok ()
    else .error "check_positive_finite: argument must be positive and finite"
  | _ => .error "check_positive_finite: argument must be positive and finite"

/-- C7: the numerical-function layer rejects structural domain errors before
any node exists — `lgamma_stirling_diff` raises a domain error for every
negative (non-NaN) argument and `check_positive_finite` throws
`std::domain_error` for every non-positive or non-finite argument — while a
NaN value is numeric, not structural: `lgamma_stirling_diff` applied to NaN
returns NaN instead of throwing. -/
theorem claim_C7_domain_validation :
    (∀ (lgammaF lgammaStirlingF : D → D) (x : D), dlt x (D.fin 0) = true →
      lgamma_stirling_diff lgammaF lgammaStirlingF x
        = .error "lgamma_stirling_diff: argument must be nonnegative") ∧
    (∀ lgammaF lgammaStirlingF : D → D,
      lgamma_stirling_diff lgammaF lgammaStirlingF D.nan = .ok D.nan) ∧
    (∀ x : D, ¬ isPosFinite x →
      check_positive_finite x
        = .error "check_positive_finite: argument must be positive and finite") := by
  refine ⟨?_, ?_, ?_⟩
  · intro lgammaF lgammaStirlingF x hx
    match x with
    | D.nan => simp [dlt] at hx
    | D.pinf => simp [dlt] at hx
    | D.ninf => simp [lgamma_stirling_diff, check_nonnegative, dge, dle, dlt, deq]
    | D.fin q =>
      have hq : q < 0 := by simpa [dlt] using hx
      have hge : dge (D.fin q) (D.fin 0) = false := by
        simp [dge, dle, dlt, deq]
        constructor
        · linarith
        · intro h; exact absurd h (by linarith)
      simp [lgamma_stirling_diff, check_nonnegative, hge]
  · intro lgammaF lgammaStirlingF
    simp [lgamma_stirling_diff]
  · intro x hx
    match x with
    | D.nan => rfl
    | D.pinf => rfl
    | D.ninf => rfl
    | D.fin q =>
      have hq : ¬ 0 < q := fun h => hx ⟨q, rfl, h⟩
      simp [check_positive_finite, hq]

/-- Witness for C7: argument `-1` (negative finite) and NaN for
`lgamma_stirling_diff`, NaN for `check_positive_finite`; the external
`lgamma` functions are instantiated with a constant. -/
theorem claim_C7_witness :
    lgamma_stirling_diff (fun _ => D.fin 0) (fun _ => D.fin 0) (D.fin (-1))
        = .error "lgamma_stirling_diff: argument must be nonnegative" ∧
    lgamma_stirling_diff (fun _ => D.fin 0) (fun _ => D.fin 0) D.nan
        = .ok D.nan ∧
    check_positive_finite D.nan
        = .error "check_positive_finite: argument must be positive and finite" :=
  ⟨claim_C7_domain_validation.1 (fun _ => D.fin 0) (fun _ => D.fin 0)
      (D.fin (-1)) (by decide),
   claim_C7_domain_validation.2.1 (fun _ => D.fin 0) (fun _ => D.fin 0),
   claim_C7_domain_validation.2.2 D.nan (by simp [isPosFinite])⟩

/-!
Embedding of `add.hpp` (lines 24-29): an Eigen matrix with its dimensions
and row-major data.
-/

/-- An Eigen matrix: dimensions plus entry list. -/
structure Mat where
  rows : Nat
  cols : Nat
  data : List ℚ
deriving DecidableEq, Repr

/-- Modelled from the spec: `check_matching_dims` (stan/math/prim/err, not
in the excerpt; add.hpp's doc comment fixes the behavior) throws
`std::invalid_argument` when the two matrices do not have the same
dimensions. -/
def check_matching_dims (m1 m2 : Mat) : Except String Unit :=
  if m1.rows = m2.rows ∧ m1.cols = m2.cols then .ok ()
  else .error "invalid_argument: m1 and m2 must have the same dimensions"

/-- `add(m1, m2)` (add.hpp lines 24-29): validate dimensions, then return
the elementwise sum `m1 + m2`. -/
def add (m1 m2 : Mat) : Except String Mat :=
  match check_matching_dims m1 m2 with
  | .error e => .error e
  | .ok () =>
    .ok { rows := m1.rows, cols := m1.cols,
          data := List.zipWith (· + ·) m1.data m2.data }

/-- C10: `add(m1, m2)` throws `std::invalid_argument` when the dimensions of
`m1` and `m2` differ, and otherwise returns the matrix of elementwise sums
(entry `i` of the result is `m1.data[i] + m2.data[i]`). -/
theorem claim_C10_add_matching_dims :
    ∀ m1 m2 : Mat,
      (¬ (m1.rows = m2.rows ∧ m1.cols = m2.cols) →
        add m1 m2
          = .error "invalid_argument: m1 and m2 must have the same dimensions") ∧
      ((m1.rows = m2.rows ∧ m1.cols = m2.cols) →
        ∃ m, add m1 m2 = .ok m ∧ m.rows = m1.rows ∧ m.cols = m1.cols ∧
          ∀ i : Nat,
            m.data[i]? = ((m1.data[i]?).map (· + ·)).bind
              fun g => (m2.data[i]?).map g) := by
  intro m1 m2
  constructor
  · intro h
    simp [add, check_matching_dims, h]
  · intro h
    refine ⟨{ rows := m1.rows, cols := m1.cols,
              data := List.zipWith (· + ·) m1.data m2.data }, ?_, rfl, rfl, ?_⟩
    · simp [add, check_matching_dims, h]
    · intro i
      exact List.getElem?_zipWith'

/-- Witness for C10: both branches at concrete matrices — a 1×2/2×1
mismatch and a matching 1×2 sum. -/
theorem claim_C10_witness :
    (add { rows := 1, cols := 2, data := [1, 2] }
         { rows := 2, cols := 1, data := [1, 2] }
        = .error "invalid_argument: m1 and m2 must have the same dimensions") ∧
    (∃ m, add { rows := 1, cols := 2, data := [1, 2] }
              { rows := 1, cols := 2, data := [10, 20] } = .ok m ∧
      m.rows = 1 ∧ m.cols = 2 ∧
      ∀ i : Nat,
        m.data[i]? = ((([1, 2] : List ℚ)[i]?).map (· + ·)).bind
          fun g => (([10, 20] : List ℚ)[i]?).map g) :=
  ⟨(claim_C10_add_matching_dims { rows := 1, cols := 2, data := [1, 2] }
      { rows := 2, cols := 1, data := [1, 2] }).1 (by decide),
   (claim_C10_add_matching_dims { rows := 1, cols := 2, data := [1, 2] }
      { rows := 1, cols := 2, data := [10, 20] }).2 (by decide)⟩

end Prim
